import Mathlib

/-
Verification of the task-flow scheduler of tv-pipelines-timken.

Embedded components:
  * `Pipelines.Flow` / `Pipelines.Task` — the dependency-graph scheduler of
    src/pipelines/flow.go (fields `name`, `fn`, `deps`, `done`, `running`,
    `err`; the extra `attempts` field is an instrumentation counter recording
    how many times the task's work function has been invoked, so that
    "the work function runs exactly once" is statable).
  * `Pipelines.Flow.findReadyTasks`, `Pipelines.Flow.allDone`,
    `Pipelines.Flow.Run` — direct translations of the Go methods.  The Go map
    iteration (randomized) is embedded as iteration over the task list in a
    fixed order; the channel-drain order of wave errors is embedded as the
    ready-list order.
  * `Pipelines.runWithRetry` — the bounded retry wrapper of the sequential
    goflow-based Flow variant (runWithRetry in the repository).  Time is
    abstracted to a clock counting completed inter-attempt delays, and the
    execution emits a trace of sleep / work-invocation events.

A work function is modelled as `Nat → Option String`: the outcome of each
successive invocation (`none` = success, `some e` = failure with error
message `e`).  The context is modelled as `Nat → Bool`: whether `ctx.Err()`
is non-nil at a given observation point (wave index for the wave executor,
completed-delay count for the retry wrapper).
-/

namespace Pipelines

/-- Task record of src/pipelines/flow.go: name, work function, declared
dependency names, and mutable run-state.  `attempts` counts invocations of
`fn` (instrumentation only; it does not influence control flow because the
wave executor invokes each task at most once). -/
structure Task where
  name : String
  fn : Nat → Option String
  deps : List String
  done : Bool
  running : Bool
  err : Option String
  attempts : Nat

/-- Flow record: flow name, the task table (Go map embedded as a list in a
fixed iteration order), and the insertion order (used only for logging). -/
structure Flow where
  name : String
  tasks : List Task
  order : List String

/-- NewFlow creates an empty flow. -/
def NewFlow (name : String) : Flow :=
  { name := name, tasks := [], order := [] }

/-- Map insertion: replace the entry with the same name, else append. -/
def upsertTask (ts : List Task) (t : Task) : List Task :=
  match ts with
  | [] => [t]
  | u :: rest => if u.name == t.name then t :: rest else u :: upsertTask rest t

/-- AddTask registers a task (state pending: not done, not running, no error)
and appends its name to the declared order. -/
def Flow.AddTask (f : Flow) (name : String) (fn : Nat → Option String)
    (deps : List String) : Flow :=
  { f with
      tasks := upsertTask f.tasks
        { name := name, fn := fn, deps := deps, done := false,
          running := false, err := none, attempts := 0 }
      order := f.order ++ [name] }

/-- Dependency satisfaction check of findReadyTasks: the dependency name must
resolve in the task table to a task whose state is done
(`if dt, ok := f.tasks[dep]; !ok || !dt.done`). -/
def depDone (ts : List Task) (dep : String) : Bool :=
  match ts.find? (fun u => u.name == dep) with
  | some dt => dt.done
  | none => false

/-- Readiness condition of findReadyTasks: not done, not running, no recorded
error, and every declared dependency satisfied. -/
def isReady (ts : List Task) (t : Task) : Bool :=
  !t.done && !t.running && t.err.isNone && t.deps.all (depDone ts)

/-- findReadyTasks: the tasks of the table satisfying the readiness
condition. -/
def Flow.findReadyTasks (f : Flow) : List Task :=
  f.tasks.filter (isReady f.tasks)

/-- allDone: every registered task is done. -/
def Flow.allDone (f : Flow) : Bool :=
  f.tasks.all (fun t => t.done)

/-- One launched task of a wave: invoke the work function once; on success
mark done, on failure record the wrapped error `"<name>: <err>"`.  (The
`running` flag is set and cleared within the wave, hence unchanged at the
wave barrier.) -/
def runTask (t : Task) : Task :=
  match t.fn t.attempts with
  | none => { t with done := true, attempts := t.attempts + 1 }
  | some e => { t with err := some (t.name ++ ": " ++ e), attempts := t.attempts + 1 }

/-- Effect of one wave on a single task: ready tasks are launched, the rest
are untouched. -/
def waveTask (ts : List Task) (t : Task) : Task :=
  if isReady ts t then runTask t else t

/-- One wave: every ready task (readiness judged on the pre-wave state) runs;
the wave is a synchronization barrier. -/
def runWave (f : Flow) : Flow :=
  { f with tasks := f.tasks.map (waveTask f.tasks) }

/-- The wrapped errors sent to the wave's error channel, in ready-list
order. -/
def waveErrors (f : Flow) : List String :=
  f.findReadyTasks.filterMap fun t =>
    match t.fn t.attempts with
    | some e => some (t.name ++ ": " ++ e)
    | none => none

/-- Outcome of Flow.Run, structured by error class: success (nil error), a
task's wrapped error, the deadlock error (which carries the flow name, as in
`fmt.Errorf` with the flow's name), or the context's cancellation error. -/
inductive RunResult where
  | success
  | taskFailed (msg : String)
  | deadlock (flowName : String)
  | cancelled
deriving DecidableEq, Repr

/-- The scheduling loop of Flow.Run.  `w` is the wave index (the context is
observed after wave `w` completes), `fuel` bounds the number of iterations
(`none` = fuel exhausted; `Flow.Run` supplies enough fuel for any run, see
`runLoop_fuel`-style results below).  Branch order follows the source:
empty ready set → success / first recorded task error / deadlock; otherwise
run the wave, return the first wave error if any, then observe the context,
else loop. -/
def runLoop (ctx : Nat → Bool) (w fuel : Nat) (f : Flow) :
    Option (RunResult × Flow) :=
  match fuel with
  | 0 => none
  | fuel + 1 =>
    if f.findReadyTasks.isEmpty then
      if f.allDone then some (.success, f)
      else
        match f.tasks.find? (fun t => t.err.isSome) with
        | some t => some (.taskFailed (t.err.getD ""), f)
        | none => some (.deadlock f.name, f)
    else
      match waveErrors f with
      | e :: _ => some (.taskFailed e, runWave f)
      | [] =>
        if ctx w then some (.cancelled, runWave f)
        else runLoop ctx (w + 1) fuel (runWave f)

/-- Flow.Run: the scheduling loop from wave 0.  Each continuing iteration
strictly increases the number of done tasks, so `tasks.length + 1` units of
fuel always suffice. -/
def Flow.Run (ctx : Nat → Bool) (f : Flow) : Option (RunResult × Flow) :=
  runLoop ctx 0 (f.tasks.length + 1) f

/-! Basic structural lemmas about waves. -/

theorem runWave_tasks (f : Flow) :
    (runWave f).tasks = f.tasks.map (waveTask f.tasks) := rfl

theorem runTask_name (t : Task) : (runTask t).name = t.name := by
  unfold runTask; cases t.fn t.attempts <;> rfl

theorem runTask_deps (t : Task) : (runTask t).deps = t.deps := by
  unfold runTask; cases t.fn t.attempts <;> rfl

theorem runTask_fn (t : Task) : (runTask t).fn = t.fn := by
  unfold runTask; cases t.fn t.attempts <;> rfl

theorem runTask_running (t : Task) : (runTask t).running = t.running := by
  unfold runTask; cases t.fn t.attempts <;> rfl

theorem waveTask_name (ts : List Task) (t : Task) :
    (waveTask ts t).name = t.name := by
  unfold waveTask; split <;> simp [runTask_name]

theorem waveTask_deps (ts : List Task) (t : Task) :
    (waveTask ts t).deps = t.deps := by
  unfold waveTask; split <;> simp [runTask_deps]

theorem waveTask_fn (ts : List Task) (t : Task) :
    (waveTask ts t).fn = t.fn := by
  unfold waveTask; split <;> simp [runTask_fn]

theorem waveTask_running (ts : List Task) (t : Task) :
    (waveTask ts t).running = t.running := by
  unfold waveTask; split <;> simp [runTask_running]

theorem notReady_of_err {t : Task} (ts : List Task) (he : t.err.isSome = true) :
    isReady ts t = false := by
  unfold isReady
  cases h : t.err with
  | none => rw [h] at he; simp at he
  | some e => simp [h]

theorem notReady_of_done {t : Task} (ts : List Task) (hd : t.done = true) :
    isReady ts t = false := by
  unfold isReady; simp [hd]

theorem waveTask_of_err {t : Task} (ts : List Task) (he : t.err.isSome = true) :
    waveTask ts t = t := by
  unfold waveTask; rw [notReady_of_err ts he]; simp

/-- A task that has recorded an error and is not done survives a wave
unchanged, so the invariant "some task is failed and not done" is preserved
wave to wave. -/
theorem err_task_mem_runWave {f : Flow} {t : Task} (ht : t ∈ f.tasks)
    (he : t.err.isSome = true) : t ∈ (runWave f).tasks := by
  rw [runWave_tasks]
  have hw : waveTask f.tasks t = t := waveTask_of_err f.tasks he
  exact hw ▸ List.mem_map_of_mem (waveTask f.tasks) ht

theorem allDone_eq_false_of_pending {f : Flow} {t : Task} (ht : t ∈ f.tasks)
    (hd : t.done = false) : f.allDone = false := by
  unfold Flow.allDone
  by_contra h
  have h' : f.tasks.all (fun t => t.done) = true := by
    cases hall : f.tasks.all (fun t => t.done) with
    | true => rfl
    | false => exact absurd hall h
  rw [List.all_eq_true] at h'
  have := h' t ht
  rw [hd] at this
  simp at this

/-- Characterization of the dependency-satisfaction check. -/
theorem depDone_iff (ts : List Task) (d : String) :
    depDone ts d = true ↔
      ∃ u ∈ ts, ts.find? (fun v => v.name == d) = some u ∧ u.done = true := by
  unfold depDone
  cases h : ts.find? (fun v => v.name == d) with
  | none => simp
  | some u =>
    have hu : u ∈ ts := List.mem_of_find?_eq_some h
    constructor
    · intro hd; exact ⟨u, hu, rfl, hd⟩
    · rintro ⟨v, _, hv, hvd⟩
      cases hv
      exact hvd

/-- Claim C3: `findReadyTasks` returns exactly the tasks that are not done,
not running, carry no recorded error, and whose every declared dependency
name resolves in the task table to a registered task in state done; in
particular a task one of whose dependency names resolves to no registered
task is never returned. -/
theorem claim_C3 (f : Flow) (t : Task) :
    (t ∈ f.findReadyTasks ↔
      t ∈ f.tasks ∧ t.done = false ∧ t.running = false ∧ t.err = none ∧
        ∀ d ∈ t.deps, ∃ u ∈ f.tasks,
          f.tasks.find? (fun v => v.name == d) = some u ∧ u.done = true) ∧
      (∀ d ∈ t.deps, (∀ u ∈ f.tasks, u.name ≠ d) → t ∉ f.findReadyTasks) := by
  have hmain : t ∈ f.findReadyTasks ↔
      t ∈ f.tasks ∧ t.done = false ∧ t.running = false ∧ t.err = none ∧
        ∀ d ∈ t.deps, ∃ u ∈ f.tasks,
          f.tasks.find? (fun v => v.name == d) = some u ∧ u.done = true := by
    unfold Flow.findReadyTasks
    rw [List.mem_filter]
    unfold isReady
    simp only [Bool.and_eq_true, Bool.not_eq_true', Option.isNone_iff_eq_none,
      List.all_eq_true]
    constructor
    · rintro ⟨hm, ⟨⟨hd, hr⟩, he⟩, hdeps⟩
      exact ⟨hm, hd, hr, he, fun d hd' => (depDone_iff f.tasks d).mp (hdeps d hd')⟩
    · rintro ⟨hm, hd, hr, he, hdeps⟩
      exact ⟨hm, ⟨⟨hd, hr⟩, he⟩,
        fun d hd' => (depDone_iff f.tasks d).mpr (hdeps d hd')⟩
  refine ⟨hmain, ?_⟩
  intro d hd hnone hmem
  obtain ⟨_, _, _, _, hdeps⟩ := hmain.mp hmem
  obtain ⟨u, hu, hfind, _⟩ := hdeps d hd
  have : u.name = d := by
    have := List.find?_some hfind
    exact eq_of_beq this
  exact hnone u hu this

/-- Claim C2: whenever the ready set is empty while some task is not done
and no task carries a recorded error, the scheduling loop returns the
deadlock error carrying the flow's name (in one step, hence never hangs),
and so does `Run`. -/
theorem claim_C2 (f : Flow)
    (hready : f.findReadyTasks = [])
    (hpend : ∃ t ∈ f.tasks, t.done = false)
    (herr : ∀ t ∈ f.tasks, t.err = none) :
    (∀ ctx w fuel, runLoop ctx w (fuel + 1) f =
        some (RunResult.deadlock f.name, f)) ∧
      ∀ ctx, f.Run ctx = some (RunResult.deadlock f.name, f) := by
  obtain ⟨t, ht, htd⟩ := hpend
  have hempty : f.findReadyTasks.isEmpty = true := by
    rw [hready]; rfl
  have hall : f.allDone = false := allDone_eq_false_of_pending ht htd
  have hfind : f.tasks.find? (fun t => t.err.isSome) = none := by
    rw [List.find?_eq_none]
    intro u hu
    rw [herr u hu]
    simp
  have hmain : ∀ ctx w fuel, runLoop ctx w (fuel + 1) f =
      some (RunResult.deadlock f.name, f) := by
    intro ctx w fuel
    unfold runLoop
    simp only [hempty, hall, hfind, if_true, if_false, Bool.false_eq_true]
  refine ⟨hmain, fun ctx => ?_⟩
  unfold Flow.Run
  exact hmain ctx 0 f.tasks.length

/-- The scheduling loop never reports success from a state containing a
failed, not-done task. -/
theorem runLoop_ne_success_of_err :
    ∀ (fuel : Nat) (ctx : Nat → Bool) (w : Nat) (f : Flow),
      (∃ t ∈ f.tasks, t.err.isSome = true ∧ t.done = false) →
      ∀ g, runLoop ctx w fuel f ≠ some (RunResult.success, g) := by
  intro fuel
  induction fuel with
  | zero => intro ctx w f _ g h; simp [runLoop] at h
  | succ n ih =>
    intro ctx w f hinv g h
    obtain ⟨t, ht, hte, htd⟩ := hinv
    have hall : f.allDone = false := allDone_eq_false_of_pending ht htd
    unfold runLoop at h
    by_cases hemp : f.findReadyTasks.isEmpty = true
    · rw [if_pos hemp, hall] at h
      simp only [Bool.false_eq_true, if_false] at h
      cases hf : f.tasks.find? (fun t => t.err.isSome) with
      | none => rw [hf] at h; simp at h
      | some u => rw [hf] at h; simp at h
    · rw [if_neg hemp] at h
      cases hw : waveErrors f with
      | cons e rest => rw [hw] at h; simp at h
      | nil =>
        rw [hw] at h
        by_cases hc : ctx w = true
        · simp [hc] at h
        · simp only [if_neg hc] at h
          exact ih ctx (w + 1) (runWave f)
            ⟨t, err_task_mem_runWave ht hte, hte, htd⟩ g h

/-- Claim C10: a task with a recorded error (and hence not done) is excluded
from every subsequent ready set, makes `allDone` false, and from any such
state the scheduling loop can never return success. -/
theorem claim_C10 (f : Flow) (t : Task) (ht : t ∈ f.tasks)
    (he : t.err.isSome = true) (hd : t.done = false) :
    t ∉ f.findReadyTasks ∧ f.allDone = false ∧
      ∀ ctx w fuel g, runLoop ctx w fuel f ≠ some (RunResult.success, g) := by
  refine ⟨?_, allDone_eq_false_of_pending ht hd, ?_⟩
  · intro hmem
    unfold Flow.findReadyTasks at hmem
    rw [List.mem_filter] at hmem
    rw [notReady_of_err f.tasks he] at hmem
    simp at hmem
  · intro ctx w fuel g
    exact runLoop_ne_success_of_err fuel ctx w f ⟨t, ht, he, hd⟩ g

theorem runWave_length (f : Flow) :
    (runWave f).tasks.length = f.tasks.length := by
  rw [runWave_tasks]; exact List.length_map f.tasks (waveTask f.tasks)

theorem iter_runWave_length (f : Flow) :
    ∀ k, (runWave^[k] f).tasks.length = f.tasks.length := by
  intro k
  induction k with
  | zero => rfl
  | succ n ih =>
    rw [Function.iterate_succ_apply' runWave n f, runWave_length]
    exact ih

theorem deps_done_of_isReady {ts : List Task} {t : Task}
    (h : isReady ts t = true) : ∀ d ∈ t.deps, depDone ts d = true := by
  unfold isReady at h
  simp only [Bool.and_eq_true, List.all_eq_true] at h
  exact fun d hd => h.2 d hd

/-- Claim C4: in every state reachable by iterating the wave step, a task
is launched in wave `k + 1` — its work function invoked, so it is running
during that wave and possibly done afterwards (the launch is visible as the
increase of its invocation counter) — only if every one of its declared
dependencies was already done in the state after wave `k`, i.e. reached
done in a strictly earlier wave: no task ever starts before all of its
declared dependencies are done. -/
theorem claim_C4 (f : Flow) (k i : Nat) (d0 : Task) (hi : i < f.tasks.length)
    (hstart : ((runWave^[k + 1] f).tasks.getD i d0).attempts ≠
      ((runWave^[k] f).tasks.getD i d0).attempts) :
    ∀ d ∈ ((runWave^[k] f).tasks.getD i d0).deps,
      depDone (runWave^[k] f).tasks d = true := by
  have hig : i < (runWave^[k] f).tasks.length := by
    rw [iter_runWave_length f k]; exact hi
  have hstep : runWave^[k + 1] f = runWave (runWave^[k] f) :=
    Function.iterate_succ_apply' runWave k f
  rw [hstep] at hstart
  have hi2 : i < ((runWave^[k] f).tasks.map
      (waveTask (runWave^[k] f).tasks)).length := by
    rw [List.length_map]; exact hig
  have hmap : (runWave (runWave^[k] f)).tasks.getD i d0 =
      waveTask (runWave^[k] f).tasks ((runWave^[k] f).tasks.getD i d0) := by
    rw [runWave_tasks, List.getD_eq_getElem _ _ hi2,
      List.getD_eq_getElem _ _ hig, List.getElem_map]
  rw [hmap] at hstart
  by_cases hr : isReady (runWave^[k] f).tasks
      ((runWave^[k] f).tasks.getD i d0) = true
  · exact deps_done_of_isReady hr
  · exfalso
    unfold waveTask at hstart
    rw [if_neg hr] at hstart
    exact hstart rfl

/-! Concrete flows used as witnesses. -/

/-- A work function that always succeeds. -/
def okFn : Nat → Option String := fun _ => none

/-- Default task used with `List.getD`. -/
def defaultTask : Task :=
  { name := "", fn := okFn, deps := [], done := false, running := false,
    err := none, attempts := 0 }

/-- Two mutually dependent pending tasks: a dependency cycle. -/
def c2Flow : Flow :=
  { name := "w2"
    tasks :=
      [{ name := "a", fn := okFn, deps := ["b"], done := false,
         running := false, err := none, attempts := 0 },
       { name := "b", fn := okFn, deps := ["a"], done := false,
         running := false, err := none, attempts := 0 }]
    order := ["a", "b"] }

theorem claim_C2_witness :
    (∀ ctx w fuel, runLoop ctx w (fuel + 1) c2Flow =
        some (RunResult.deadlock c2Flow.name, c2Flow)) ∧
      ∀ ctx, c2Flow.Run ctx = some (RunResult.deadlock c2Flow.name, c2Flow) :=
  claim_C2 c2Flow rfl
    ⟨{ name := "a", fn := okFn, deps := ["b"], done := false,
       running := false, err := none, attempts := 0 },
     by simp [c2Flow], rfl⟩
    (by intro t ht; fin_cases ht <;> rfl)

/-- A flow holding one failed (error-recorded, not done) task. -/
def c10Task : Task :=
  { name := "t", fn := okFn, deps := [], done := false, running := false,
    err := some "t: boom", attempts := 1 }

def c10Flow : Flow :=
  { name := "w10", tasks := [c10Task], order := ["t"] }

theorem claim_C10_witness :
    c10Task ∉ c10Flow.findReadyTasks ∧ c10Flow.allDone = false ∧
      ∀ ctx w fuel g,
        runLoop ctx w fuel c10Flow ≠ some (RunResult.success, g) :=
  claim_C10 c10Flow c10Task (by simp [c10Flow]) rfl rfl

/-- Chain flow: `b` depends on `a`; `b` completes in wave 2, after `a`
finished in wave 1. -/
def c4Flow : Flow :=
  { name := "w4"
    tasks :=
      [{ name := "a", fn := okFn, deps := [], done := false,
         running := false, err := none, attempts := 0 },
       { name := "b", fn := okFn, deps := ["a"], done := false,
         running := false, err := none, attempts := 0 }]
    order := ["a", "b"] }

theorem claim_C4_witness :
    depDone (runWave^[1] c4Flow).tasks "a" = true :=
  claim_C4 c4Flow 1 1 defaultTask (by decide) (by decide) "a" (by decide)

/-! The completion argument (claim C1). -/

/-- Every declared dependency name resolves to a registered task. -/
def Resolvable (f : Flow) : Prop :=
  ∀ t ∈ f.tasks, ∀ d ∈ t.deps, ∃ u ∈ f.tasks, u.name = d

/-- Acyclicity of the dependency declarations, stated as the existence of a
rank under which every dependency edge strictly decreases; for a finite
dependency graph this is equivalent to the absence of directed cycles
(topological levels). -/
def Acyclic (f : Flow) : Prop :=
  ∃ rank : String → Nat, ∀ t ∈ f.tasks, ∀ d ∈ t.deps, rank d < rank t.name

/-- Number of not-yet-done tasks. -/
def pendingCount (f : Flow) : Nat :=
  f.tasks.countP (fun t => !t.done)

theorem runTask_done_of_fn_none {t : Task} (h : t.fn t.attempts = none) :
    (runTask t).done = true := by
  unfold runTask; rw [h]

theorem runTask_err_of_fn_none {t : Task} (h : t.fn t.attempts = none) :
    (runTask t).err = t.err := by
  unfold runTask; rw [h]

theorem waveTask_done_mono {ts : List Task} {t : Task} (h : t.done = true) :
    (waveTask ts t).done = true := by
  simp [waveTask, notReady_of_done ts h, h]

theorem not_done_of_isReady {ts : List Task} {t : Task}
    (h : isReady ts t = true) : t.done = false := by
  unfold isReady at h
  simp only [Bool.and_eq_true, Bool.not_eq_true'] at h
  exact h.1.1.1

theorem ready_nil_of_allDone {f : Flow} (h : f.allDone = true) :
    f.findReadyTasks = [] := by
  unfold Flow.findReadyTasks
  rw [List.filter_eq_nil_iff]
  intro t ht
  have htd : t.done = true := by
    unfold Flow.allDone at h; rw [List.all_eq_true] at h
    simpa using h t ht
  rw [notReady_of_done f.tasks htd]
  simp

/-- Progress: while some task is pending, a clean acyclic resolvable flow
always has a ready task (the pending task of minimal rank). -/
theorem ready_nonempty_of_pending {f : Flow} {rank : String → Nat}
    (hrank : ∀ t ∈ f.tasks, ∀ d ∈ t.deps, rank d < rank t.name)
    (hres : Resolvable f)
    (hclean : ∀ t ∈ f.tasks, t.running = false ∧ t.err = none)
    (hpend : ∃ t ∈ f.tasks, t.done = false) :
    f.findReadyTasks ≠ [] := by
  obtain ⟨tp, htp, htpd⟩ := hpend
  have htpP : tp ∈ f.tasks.filter (fun t => !t.done) := by
    rw [List.mem_filter]; exact ⟨htp, by rw [htpd]; rfl⟩
  have hPne : f.tasks.filter (fun t => !t.done) ≠ [] := List.ne_nil_of_mem htpP
  obtain ⟨t0, ht0⟩ : ∃ t0,
      (f.tasks.filter (fun t => !t.done)).argmin (fun t => rank t.name) =
        some t0 := by
    cases hm : (f.tasks.filter (fun t => !t.done)).argmin
        (fun t => rank t.name) with
    | none => exact absurd (List.argmin_eq_none.mp hm) hPne
    | some m => exact ⟨m, rfl⟩
  have ht0P := List.argmin_mem ht0
  have ht0f : t0 ∈ f.tasks := (List.mem_filter.mp ht0P).1
  have ht0d : t0.done = false := by
    have := (List.mem_filter.mp ht0P).2; simpa using this
  have hready : isReady f.tasks t0 = true := by
    obtain ⟨hrun, herr⟩ := hclean t0 ht0f
    unfold isReady
    simp only [ht0d, hrun, herr, Bool.not_false, Option.isNone_none,
      Bool.true_and, Bool.and_eq_true, List.all_eq_true]
    intro d hd
    obtain ⟨v, hvf, hvn⟩ := hres t0 ht0f d hd
    have hfind : (f.tasks.find? (fun u => u.name == d)).isSome := by
      rw [List.find?_isSome]
      exact ⟨v, hvf, by rw [hvn]; simp⟩
    obtain ⟨u, hu⟩ := Option.isSome_iff_exists.mp hfind
    have huf : u ∈ f.tasks := List.mem_of_find?_eq_some hu
    have hp := List.find?_some hu
    have hund : u.name = d := by simpa using hp
    cases hud : u.done with
    | true => simp [depDone, hu, hud]
    | false =>
      exfalso
      have huP : u ∈ f.tasks.filter (fun t => !t.done) := by
        rw [List.mem_filter]; exact ⟨huf, by rw [hud]; rfl⟩
      have hle : rank t0.name ≤ rank u.name :=
        List.le_of_mem_argmin (f := fun t => rank t.name) huP ht0
      have hlt : rank d < rank t0.name := hrank t0 ht0f d hd
      rw [hund] at hle
      exact absurd (lt_of_lt_of_le hlt hle) (lt_irrefl _)
  refine List.ne_nil_of_mem (a := t0) ?_
  unfold Flow.findReadyTasks
  rw [List.mem_filter]
  exact ⟨ht0f, hready⟩

theorem countP_le_of_imp {α : Type} (l : List α) (p q : α → Bool)
    (h : ∀ x ∈ l, p x = true → q x = true) : l.countP p ≤ l.countP q := by
  induction l with
  | nil => simp
  | cons a l ih =>
    rw [List.countP_cons, List.countP_cons]
    have h1 : l.countP p ≤ l.countP q :=
      ih (fun x hx => h x (List.mem_cons_of_mem a hx))
    have h2 : (if p a = true then 1 else 0) ≤ (if q a = true then 1 else 0) := by
      by_cases hpa : p a = true
      · rw [if_pos hpa, if_pos (h a (List.mem_cons_self a l) hpa)]
      · rw [if_neg hpa]; exact Nat.zero_le _
    omega

theorem countP_lt_of_witness {α : Type} (p q : α → Bool) :
    ∀ l : List α, (∀ x ∈ l, p x = true → q x = true) →
      (∃ x ∈ l, q x = true ∧ p x = false) → l.countP p < l.countP q := by
  intro l
  induction l with
  | nil => intro _ h; simp at h
  | cons a l ih =>
    intro hmono hex
    rw [List.countP_cons, List.countP_cons]
    obtain ⟨x, hx, hqx, hpx⟩ := hex
    rcases List.mem_cons.mp hx with rfl | hxl
    · have h1 : l.countP p ≤ l.countP q :=
        countP_le_of_imp l p q (fun y hy => hmono y (List.mem_cons_of_mem _ hy))
      rw [if_neg (by rw [hpx]; simp), if_pos hqx]
      omega
    · have h1 : l.countP p < l.countP q :=
        ih (fun y hy => hmono y (List.mem_cons_of_mem _ hy)) ⟨x, hxl, hqx, hpx⟩
      have h2 : (if p a = true then 1 else 0) ≤ (if q a = true then 1 else 0) := by
        by_cases hpa : p a = true
        · rw [if_pos hpa, if_pos (hmono a (List.mem_cons_self a l) hpa)]
        · rw [if_neg hpa]; exact Nat.zero_le _
      omega

/-- A wave in which every work function succeeds strictly decreases the
number of pending tasks, provided some task is ready. -/
theorem pendingCount_runWave_lt {f : Flow}
    (hfn : ∀ t ∈ f.tasks, ∀ k, t.fn k = none)
    (hne : f.findReadyTasks ≠ []) :
    pendingCount (runWave f) < pendingCount f := by
  unfold pendingCount
  rw [runWave_tasks, List.countP_map]
  apply countP_lt_of_witness
  · intro x hx hpx
    simp only [Function.comp_apply, Bool.not_eq_true'] at hpx
    simp only [Bool.not_eq_true']
    cases hxd : x.done with
    | false => rfl
    | true => exact absurd (waveTask_done_mono hxd) (by rw [hpx]; simp)
  · obtain ⟨t1, ht1⟩ := List.exists_mem_of_ne_nil _ hne
    have ht1f : t1 ∈ f.tasks := (List.mem_filter.mp ht1).1
    have ht1r : isReady f.tasks t1 = true := (List.mem_filter.mp ht1).2
    refine ⟨t1, ht1f, ?_, ?_⟩
    · rw [not_done_of_isReady ht1r]; rfl
    · simp only [Function.comp_apply, Bool.not_eq_false]
      unfold waveTask
      rw [if_pos ht1r]
      rw [runTask_done_of_fn_none (hfn t1 ht1f t1.attempts)]
      rfl

/-! Preservation of the completion hypotheses across a wave. -/

theorem runWave_mem {f : Flow} {u : Task} (hu : u ∈ (runWave f).tasks) :
    ∃ t ∈ f.tasks, u = waveTask f.tasks t := by
  rw [runWave_tasks] at hu
  obtain ⟨t, ht, htu⟩ := List.mem_map.mp hu
  exact ⟨t, ht, htu.symm⟩

theorem runWave_rank {f : Flow} {rank : String → Nat}
    (hrank : ∀ t ∈ f.tasks, ∀ d ∈ t.deps, rank d < rank t.name) :
    ∀ u ∈ (runWave f).tasks, ∀ d ∈ u.deps, rank d < rank u.name := by
  intro u hu d hd
  obtain ⟨t, ht, rfl⟩ := runWave_mem hu
  rw [waveTask_name]
  rw [waveTask_deps] at hd
  exact hrank t ht d hd

theorem runWave_resolvable {f : Flow} (hres : Resolvable f) :
    Resolvable (runWave f) := by
  intro u hu d hd
  obtain ⟨t, ht, rfl⟩ := runWave_mem hu
  rw [waveTask_deps] at hd
  obtain ⟨v, hv, hvn⟩ := hres t ht d hd
  refine ⟨waveTask f.tasks v, ?_, ?_⟩
  · rw [runWave_tasks]; exact List.mem_map_of_mem _ hv
  · rw [waveTask_name]; exact hvn

theorem runWave_clean {f : Flow}
    (hclean : ∀ t ∈ f.tasks, t.running = false ∧ t.err = none)
    (hfn : ∀ t ∈ f.tasks, ∀ k, t.fn k = none) :
    ∀ u ∈ (runWave f).tasks, u.running = false ∧ u.err = none := by
  intro u hu
  obtain ⟨t, ht, rfl⟩ := runWave_mem hu
  refine ⟨by rw [waveTask_running]; exact (hclean t ht).1, ?_⟩
  unfold waveTask
  by_cases hr : isReady f.tasks t = true
  · rw [if_pos hr, runTask_err_of_fn_none (hfn t ht t.attempts)]
    exact (hclean t ht).2
  · rw [if_neg hr]; exact (hclean t ht).2

theorem runWave_fn {f : Flow}
    (hfn : ∀ t ∈ f.tasks, ∀ k, t.fn k = none) :
    ∀ u ∈ (runWave f).tasks, ∀ k, u.fn k = none := by
  intro u hu k
  obtain ⟨t, ht, rfl⟩ := runWave_mem hu
  rw [waveTask_fn]
  exact hfn t ht k

/-- The wave's error channel stays empty when every work function
succeeds. -/
theorem waveErrors_nil {f : Flow}
    (hfn : ∀ t ∈ f.tasks, ∀ k, t.fn k = none) : waveErrors f = [] := by
  unfold waveErrors
  rw [List.filterMap_eq_nil_iff]
  intro t ht
  have htf : t ∈ f.tasks := (List.mem_filter.mp ht).1
  rw [hfn t htf t.attempts]

/-- Main completion induction, on the number of pending tasks. -/
theorem runLoop_success_of_acyclic (rank : String → Nat) :
    ∀ (n : Nat) (f : Flow) (ctx : Nat → Bool) (w fuel : Nat),
      (∀ t ∈ f.tasks, ∀ d ∈ t.deps, rank d < rank t.name) →
      Resolvable f →
      (∀ t ∈ f.tasks, t.running = false ∧ t.err = none) →
      (∀ t ∈ f.tasks, ∀ k, t.fn k = none) →
      (∀ k, ctx k = false) →
      pendingCount f ≤ n → n < fuel →
      ∃ g, runLoop ctx w fuel f = some (RunResult.success, g) ∧
        ∀ t ∈ g.tasks, t.done = true := by
  intro n
  induction n with
  | zero =>
    intro f ctx w fuel _ _ _ _ _ hpc hfuel
    have hall : f.allDone = true := by
      unfold Flow.allDone; rw [List.all_eq_true]
      intro t ht
      have h0 : f.tasks.countP (fun t => !t.done) = 0 := Nat.le_zero.mp hpc
      have := List.countP_eq_zero.mp h0 t ht
      simpa using this
    obtain ⟨m, rfl⟩ : ∃ m, fuel = m + 1 := ⟨fuel - 1, by omega⟩
    refine ⟨f, ?_, fun t ht => ?_⟩
    · unfold runLoop
      simp [ready_nil_of_allDone hall, hall]
    · unfold Flow.allDone at hall; rw [List.all_eq_true] at hall
      simpa using hall t ht
  | succ n ih =>
    intro f ctx w fuel hrank hres hclean hfn hctx hpc hfuel
    by_cases hall : f.allDone = true
    · obtain ⟨m, rfl⟩ : ∃ m, fuel = m + 1 := ⟨fuel - 1, by omega⟩
      refine ⟨f, ?_, fun t ht => ?_⟩
      · unfold runLoop
        simp [ready_nil_of_allDone hall, hall]
      · unfold Flow.allDone at hall; rw [List.all_eq_true] at hall
        simpa using hall t ht
    · have hpend : ∃ t ∈ f.tasks, t.done = false := by
        unfold Flow.allDone at hall
        rw [List.all_eq_true] at hall
        push_neg at hall
        obtain ⟨t, ht, htd⟩ := hall
        exact ⟨t, ht, by simpa using htd⟩
      have hne := ready_nonempty_of_pending hrank hres hclean hpend
      obtain ⟨m, rfl⟩ : ∃ m, fuel = m + 1 := ⟨fuel - 1, by omega⟩
      have hemp : f.findReadyTasks.isEmpty = false := by
        cases h : f.findReadyTasks with
        | nil => exact absurd h hne
        | cons a l => rfl
      have hstep : runLoop ctx w (m + 1) f = runLoop ctx (w + 1) m (runWave f) := by
        conv_lhs => unfold runLoop
        rw [hemp]
        simp only [Bool.false_eq_true, if_false]
        rw [waveErrors_nil hfn]
        simp only [hctx w, Bool.false_eq_true, if_false]
      rw [hstep]
      refine ih (runWave f) ctx (w + 1) m (runWave_rank hrank)
        (runWave_resolvable hres) (runWave_clean hclean hfn)
        (runWave_fn hfn) hctx ?_ (by omega)
      have := pendingCount_runWave_lt hfn hne
      omega

/-- Claim C1: for a flow whose dependency names all resolve, whose
dependency declarations are acyclic, whose tasks are pending and clean, and
whose work functions always succeed, under a never-cancelled context `Run`
returns success and every registered task ends in state done. -/
theorem claim_C1 (f : Flow) (ctx : Nat → Bool)
    (hacy : Acyclic f) (hres : Resolvable f)
    (hclean : ∀ t ∈ f.tasks, t.running = false ∧ t.err = none)
    (hfn : ∀ t ∈ f.tasks, ∀ k, t.fn k = none)
    (hctx : ∀ k, ctx k = false) :
    ∃ g, f.Run ctx = some (RunResult.success, g) ∧
      ∀ t ∈ g.tasks, t.done = true := by
  obtain ⟨rank, hrank⟩ := hacy
  unfold Flow.Run
  refine runLoop_success_of_acyclic rank (pendingCount f) f ctx 0
    (f.tasks.length + 1) hrank hres hclean hfn hctx le_rfl ?_
  have : pendingCount f ≤ f.tasks.length := List.countP_le_length _
  omega

def c1A : Task :=
  { name := "a", fn := okFn, deps := [], done := false, running := false,
    err := none, attempts := 0 }

def c1B : Task :=
  { name := "b", fn := okFn, deps := ["a"], done := false, running := false,
    err := none, attempts := 0 }

def c1Flow : Flow :=
  { name := "w1", tasks := [c1A, c1B], order := ["a", "b"] }

theorem claim_C1_witness :
    ∃ g, c1Flow.Run (fun _ => false) = some (RunResult.success, g) ∧
      ∀ t ∈ g.tasks, t.done = true :=
  claim_C1 c1Flow (fun _ => false)
    ⟨fun s => if s = "b" then 1 else 0, by decide⟩
    (by simp only [Resolvable]; decide)
    (by decide)
    (by
      intro t ht k
      have ht2 : t ∈ [c1A, c1B] := ht
      have ht3 : t = c1A ∨ t = c1B := by simpa using ht2
      rcases ht3 with rfl | rfl <;> rfl)
    (fun _ => rfl)

/-! The Retry Wrapper: runWithRetry of the sequential goflow-based Flow. -/

/-- goflow task as consumed by runWithRetry: name, configured retries, and
the operator's work function (outcome of each attempt, attempts numbered
from 1). -/
structure RetryTask where
  name : String
  retries : Nat
  work : Nat → Option String

/-- Observable actions of the wrapper: one full inter-attempt delay slept
to completion, or an invocation of the work function for a given attempt
number. -/
inductive REvent where
  | sleep
  | invoke (attempt : Nat)
deriving DecidableEq, Repr

/-- Outcome of runWithRetry: nil error; the cancellation error
(`"<name> cancelled: <ctx err>"`, naming the task); or the final error after
exhausting all attempts (`"<name> failed after <n> attempts: <lastErr>"`,
naming the task, stating the attempt count, and wrapping the last underlying
error). -/
inductive RetryOutcome where
  | ok
  | cancelled (taskName : String)
  | exhausted (taskName : String) (attemptCount : Nat) (lastErr : Option String)
deriving DecidableEq, Repr

/-- Prefix some events onto an execution's trace. -/
def consTrace (pre : List REvent) (p : RetryOutcome × List REvent) :
    RetryOutcome × List REvent :=
  (p.1, pre ++ p.2)

/-- The retry loop, one iteration per remaining attempt, mirroring
`for attempt := 1; attempt <= maxAttempts; attempt++`: first check the
context (`ctx clock`, where `clock` counts delays completed so far); then,
when `attempt > 1`, sleep one full inter-attempt delay (advancing the
clock); then invoke the work function: on failure remember the error and
continue, on success return nil immediately. -/
def retryGo (ctx : Nat → Bool) (t : RetryTask) (maxA : Nat)
    (remaining attempt clock : Nat) (lastErr : Option String) :
    RetryOutcome × List REvent :=
  match remaining with
  | 0 => (.exhausted t.name maxA lastErr, [])
  | r + 1 =>
    if ctx clock then (.cancelled t.name, [])
    else
      if attempt > 1 then
        match t.work attempt with
        | some e =>
          consTrace [.sleep, .invoke attempt]
            (retryGo ctx t maxA r (attempt + 1) (clock + 1) (some e))
        | none => (.ok, [.sleep, .invoke attempt])
      else
        match t.work attempt with
        | some e =>
          consTrace [.invoke attempt]
            (retryGo ctx t maxA r (attempt + 1) clock (some e))
        | none => (.ok, [.invoke attempt])

/-- runWithRetry: `maxAttempts = max(retries+1, 1)` attempts starting at
attempt 1 with no delay elapsed and no recorded error. -/
def runWithRetry (ctx : Nat → Bool) (t : RetryTask) :
    RetryOutcome × List REvent :=
  retryGo ctx t (max (t.retries + 1) 1) (max (t.retries + 1) 1) 1 0 none

/-- Number of work-function invocations recorded in a trace. -/
def invokeCount (tr : List REvent) : Nat :=
  tr.countP fun e => match e with
    | .invoke _ => true
    | _ => false

theorem consTrace_fst (pre : List REvent) (p : RetryOutcome × List REvent) :
    (consTrace pre p).1 = p.1 := rfl

theorem invokeCount_append (a b : List REvent) :
    invokeCount (a ++ b) = invokeCount a + invokeCount b :=
  List.countP_append _ a b

/-- All-fail run of the retry loop: exhausts the remaining attempts, ends
with the final error wrapping the outcome of the last attempt, invoking the
work function once per remaining attempt. -/
theorem retryGo_allfail (ctx : Nat → Bool) (t : RetryTask) (maxA : Nat)
    (hctx : ∀ c, ctx c = false) :
    ∀ (s attempt clock : Nat) (lastErr : Option String),
      (∀ k, attempt ≤ k → k ≤ attempt + s → (t.work k).isSome = true) →
      (retryGo ctx t maxA (s + 1) attempt clock lastErr).1 =
          RetryOutcome.exhausted t.name maxA (t.work (attempt + s)) ∧
        invokeCount (retryGo ctx t maxA (s + 1) attempt clock lastErr).2 =
          s + 1 := by
  intro s
  induction s with
  | zero =>
    intro attempt clock lastErr hw
    obtain ⟨e, he⟩ := Option.isSome_iff_exists.mp
      (hw attempt le_rfl (by omega))
    unfold retryGo
    rw [hctx clock]
    simp only [Bool.false_eq_true, if_false]
    by_cases hgt : attempt > 1
    · rw [if_pos hgt, he]
      unfold retryGo
      constructor
      · simp [consTrace, Nat.add_zero, he]
      · simp [consTrace, invokeCount, List.countP_cons]
    · rw [if_neg hgt, he]
      unfold retryGo
      constructor
      · simp [consTrace, Nat.add_zero, he]
      · simp [consTrace, invokeCount, List.countP_cons]
  | succ s ih =>
    intro attempt clock lastErr hw
    obtain ⟨e, he⟩ := Option.isSome_iff_exists.mp
      (hw attempt le_rfl (by omega))
    have hrec := ih (attempt + 1) (clock + 1) (some e)
      (fun k h1 h2 => hw k (by omega) (by omega))
    have hrec' := ih (attempt + 1) clock (some e)
      (fun k h1 h2 => hw k (by omega) (by omega))
    have harith : attempt + 1 + s = attempt + (s + 1) := by omega
    unfold retryGo
    rw [hctx clock]
    simp only [Bool.false_eq_true, if_false]
    by_cases hgt : attempt > 1
    · rw [if_pos hgt, he]
      rw [harith] at hrec
      refine ⟨by rw [consTrace_fst]; exact hrec.1, ?_⟩
      show invokeCount ([REvent.sleep, REvent.invoke attempt] ++ _) = s + 1 + 1
      rw [invokeCount_append, hrec.2]
      simp [invokeCount, List.countP_cons]
      omega
    · rw [if_neg hgt, he]
      rw [harith] at hrec'
      refine ⟨by rw [consTrace_fst]; exact hrec'.1, ?_⟩
      show invokeCount ([REvent.invoke attempt] ++ _) = s + 1 + 1
      rw [invokeCount_append, hrec'.2]
      simp [invokeCount, List.countP_cons]
      omega

/-- Claim C5: under a never-cancelled context, a task whose work fails on
every attempt is invoked exactly (configured retries + 1) times, and the
wrapper returns the final error naming the task, the attempt count
(retries + 1), and wrapping the last underlying error. -/
theorem claim_C5 (t : RetryTask) (ctx : Nat → Bool)
    (hctx : ∀ c, ctx c = false)
    (hfail : ∀ k, 1 ≤ k → k ≤ t.retries + 1 → (t.work k).isSome = true) :
    (runWithRetry ctx t).1 =
        RetryOutcome.exhausted t.name (t.retries + 1) (t.work (t.retries + 1)) ∧
      invokeCount (runWithRetry ctx t).2 = t.retries + 1 := by
  have hmax : max (t.retries + 1) 1 = t.retries + 1 :=
    Nat.max_eq_left (by omega)
  unfold runWithRetry
  rw [hmax]
  have h := retryGo_allfail ctx t (t.retries + 1) hctx t.retries 1 0 none
    (fun k h1 h2 => hfail k h1 (by omega))
  have harith : 1 + t.retries = t.retries + 1 := by omega
  rw [harith] at h
  exact h

theorem mem_consTrace {x : REvent} {pre : List REvent}
    {p : RetryOutcome × List REvent} :
    x ∈ (consTrace pre p).2 ↔ x ∈ pre ∨ x ∈ p.2 := List.mem_append

/-- Success at attempt N of the retry loop: returns nil after exactly
N - attempt + 1 further invocations and never invokes an attempt beyond
N. -/
theorem retryGo_succeeds (ctx : Nat → Bool) (t : RetryTask) (maxA N : Nat)
    (hctx : ∀ c, ctx c = false) (hsucc : t.work N = none) :
    ∀ (r attempt clock : Nat) (lastErr : Option String),
      1 ≤ attempt → attempt ≤ N → N < attempt + r →
      (∀ k, attempt ≤ k → k < N → (t.work k).isSome = true) →
      (retryGo ctx t maxA r attempt clock lastErr).1 = RetryOutcome.ok ∧
        invokeCount (retryGo ctx t maxA r attempt clock lastErr).2 =
          N - attempt + 1 ∧
        ∀ k, REvent.invoke k ∈ (retryGo ctx t maxA r attempt clock lastErr).2 →
          k ≤ N := by
  intro r
  induction r with
  | zero => intro attempt clock lastErr h1 h2 h3 _; omega
  | succ r ih =>
    intro attempt clock lastErr h1 h2 h3 hw
    unfold retryGo
    rw [hctx clock]
    simp only [Bool.false_eq_true, if_false]
    by_cases heq : attempt = N
    · subst heq
      by_cases hgt : attempt > 1
      · rw [if_pos hgt, hsucc]
        refine ⟨rfl, ?_, ?_⟩
        · simp [invokeCount, List.countP_cons]
        · intro k hk
          simp at hk
          omega
      · rw [if_neg hgt, hsucc]
        refine ⟨rfl, ?_, ?_⟩
        · simp [invokeCount, List.countP_cons]
        · intro k hk
          simp at hk
          omega
    · have hlt : attempt < N := by omega
      obtain ⟨e, he⟩ := Option.isSome_iff_exists.mp
        (hw attempt le_rfl hlt)
      have hrec1 := ih (attempt + 1) (clock + 1) (some e) (by omega) (by omega)
        (by omega) (fun k hk1 hk2 => hw k (by omega) hk2)
      have hrec2 := ih (attempt + 1) clock (some e) (by omega) (by omega)
        (by omega) (fun k hk1 hk2 => hw k (by omega) hk2)
      by_cases hgt : attempt > 1
      · rw [if_pos hgt, he]
        refine ⟨by rw [consTrace_fst]; exact hrec1.1, ?_, ?_⟩
        · show invokeCount ([REvent.sleep, REvent.invoke attempt] ++ _) = _
          rw [invokeCount_append, hrec1.2.1]
          simp only [invokeCount, List.countP_cons]
          simp
          omega
        · intro k hk
          rcases mem_consTrace.mp hk with hpre | htail
          · simp at hpre; omega
          · exact hrec1.2.2 k htail
      · rw [if_neg hgt, he]
        refine ⟨by rw [consTrace_fst]; exact hrec2.1, ?_, ?_⟩
        · show invokeCount ([REvent.invoke attempt] ++ _) = _
          rw [invokeCount_append, hrec2.2.1]
          simp only [invokeCount, List.countP_cons]
          simp
          omega
        · intro k hk
          rcases mem_consTrace.mp hk with hpre | htail
          · simp at hpre; omega
          · exact hrec2.2.2 k htail

/-- Claim C6: under a never-cancelled context, a task whose work fails on
attempts 1..N-1 and succeeds on attempt N (N within the configured maximum
of retries + 1 attempts) makes the wrapper return nil immediately after
attempt N: the work function is invoked exactly N times and no attempt
beyond N is ever invoked. -/
theorem claim_C6 (t : RetryTask) (ctx : Nat → Bool) (N : Nat)
    (hctx : ∀ c, ctx c = false)
    (hN1 : 1 ≤ N) (hNle : N ≤ t.retries + 1)
    (hfail : ∀ k, 1 ≤ k → k < N → (t.work k).isSome = true)
    (hsucc : t.work N = none) :
    (runWithRetry ctx t).1 = RetryOutcome.ok ∧
      invokeCount (runWithRetry ctx t).2 = N ∧
      ∀ k, REvent.invoke k ∈ (runWithRetry ctx t).2 → k ≤ N := by
  have hmax : max (t.retries + 1) 1 = t.retries + 1 :=
    Nat.max_eq_left (by omega)
  unfold runWithRetry
  rw [hmax]
  have h := retryGo_succeeds ctx t (t.retries + 1) N hctx hsucc
    (t.retries + 1) 1 0 none le_rfl hN1 (by omega) (fun k h1 h2 => hfail k h1 h2)
  refine ⟨h.1, ?_, h.2.2⟩
  rw [h.2.1]
  omega

def c5Task : RetryTask :=
  { name := "t5", retries := 2, work := fun _ => some "boom" }

theorem claim_C5_witness :
    (runWithRetry (fun _ => false) c5Task).1 =
        RetryOutcome.exhausted c5Task.name (c5Task.retries + 1)
          (c5Task.work (c5Task.retries + 1)) ∧
      invokeCount (runWithRetry (fun _ => false) c5Task).2 =
        c5Task.retries + 1 :=
  claim_C5 c5Task (fun _ => false) (fun _ => rfl)
    (fun k _ _ => rfl)

def c6Task : RetryTask :=
  { name := "t6", retries := 2, work := fun k => if k < 2 then some "boom" else none }

theorem claim_C6_witness :
    (runWithRetry (fun _ => false) c6Task).1 = RetryOutcome.ok ∧
      invokeCount (runWithRetry (fun _ => false) c6Task).2 = 2 ∧
      ∀ k, REvent.invoke k ∈ (runWithRetry (fun _ => false) c6Task).2 →
        k ≤ 2 :=
  claim_C6 c6Task (fun _ => false) 2 (fun _ => rfl) (by omega) (by decide)
    (fun k h1 h2 => by
      have : k = 1 := by omega
      subst this
      rfl)
    rfl

/-! Claim C7: cancellation during the inter-attempt delay. -/

/-- A task whose work always fails (three attempts configured). -/
def c7Task : RetryTask :=
  { name := "t7", retries := 2, work := fun _ => some "boom" }

/-- A context cancelled during the first inter-attempt delay: `ctx.Err()` is
nil at every observation before the first delay completes (clock 0) and
non-nil from the moment the first delay has completed (clock 1 onward). -/
def c7Ctx : Nat → Bool := fun c => decide (1 ≤ c)

/-- Claim C7 counterexample: the context becomes cancelled during the delay
that follows failed attempt 1 (nil at clock 0, non-nil at clock 1), yet the
wrapper sleeps that delay to completion and still invokes the work function
for attempt 2 before the cancellation is observed — the trace ends
`invoke 1, sleep, invoke 2`, with the cancellation error returned only
afterwards.  This refutes "exits promptly without sleeping the delay to
completion and without invoking the work function for the next attempt". -/
theorem claim_C7_counterexample :
    runWithRetry c7Ctx c7Task =
        (RetryOutcome.cancelled "t7",
          [REvent.invoke 1, REvent.sleep, REvent.invoke 2]) ∧
      c7Ctx 0 = false ∧ c7Ctx 1 = true := by
  refine ⟨?_, rfl, rfl⟩
  rfl

theorem consTrace_nil (p : RetryOutcome × List REvent) :
    consTrace [] p = p := rfl

theorem consTrace_consTrace (a b : List REvent)
    (p : RetryOutcome × List REvent) :
    consTrace a (consTrace b p) = consTrace (a ++ b) p := by
  unfold consTrace
  rw [List.append_assoc]

/-- Running the retry loop across `n` consecutive failing attempts (all with
attempt number at least 2, so each is preceded by a full delay) under a
context that stays uncancelled at each of their checks: the loop reaches the
state `n` attempts, delays and clock ticks later, and the events emitted on
the way are exactly the sleeps and the invocations of those `n` attempts. -/
theorem retryGo_skip_failures (ctx : Nat → Bool) (t : RetryTask) (maxA : Nat) :
    ∀ (n attempt clock : Nat) (lastErr : Option String) (r : Nat),
      2 ≤ attempt → n ≤ r →
      (∀ i, i < n → (t.work (attempt + i)).isSome = true) →
      (∀ i, i < n → ctx (clock + i) = false) →
      ∃ (le2 : Option String) (pre : List REvent),
        retryGo ctx t maxA r attempt clock lastErr =
            consTrace pre
              (retryGo ctx t maxA (r - n) (attempt + n) (clock + n) le2) ∧
          ∀ j, REvent.invoke j ∈ pre ↔ attempt ≤ j ∧ j < attempt + n := by
  intro n
  induction n with
  | zero =>
    intro attempt clock lastErr r _ _ _ _
    refine ⟨lastErr, [], ?_, ?_⟩
    · rw [consTrace_nil]
      norm_num
    · intro j
      simp
  | succ n ih =>
    intro attempt clock lastErr r hatt hnr hw hc
    obtain ⟨r2, rfl⟩ : ∃ r2, r = r2 + 1 := ⟨r - 1, by omega⟩
    obtain ⟨e, he⟩ := Option.isSome_iff_exists.mp
      (by simpa using hw 0 (by omega))
    obtain ⟨le2, pre, hrec, hpre⟩ := ih (attempt + 1) (clock + 1) (some e) r2
      (by omega) (by omega)
      (fun i hi => by
        have := hw (i + 1) (by omega)
        simpa [Nat.add_assoc, Nat.add_comm 1 i] using this)
      (fun i hi => by
        have := hc (i + 1) (by omega)
        simpa [Nat.add_assoc, Nat.add_comm 1 i] using this)
    refine ⟨le2, [REvent.sleep, REvent.invoke attempt] ++ pre, ?_, ?_⟩
    · have hstep : retryGo ctx t maxA (r2 + 1) attempt clock lastErr =
          consTrace [REvent.sleep, REvent.invoke attempt]
            (retryGo ctx t maxA r2 (attempt + 1) (clock + 1) (some e)) := by
        conv_lhs => unfold retryGo
        rw [show ctx clock = false from by simpa using hc 0 (by omega)]
        simp only [Bool.false_eq_true, if_false]
        rw [if_pos (by omega : attempt > 1), he]
      rw [hstep, hrec, consTrace_consTrace]
      have h1 : r2 - n = r2 + 1 - (n + 1) := by omega
      have h2 : attempt + 1 + n = attempt + (n + 1) := by omega
      have h3 : clock + 1 + n = clock + (n + 1) := by omega
      rw [h1, h2, h3]
    · intro j
      simp only [List.mem_append, List.mem_cons, List.not_mem_nil]
      constructor
      · rintro ((h | h | h) | h)
        · exact absurd h (by simp)
        · have : j = attempt := by
            injection h
          omega
        · exact absurd h (by simp)
        · have := (hpre j).mp h
          omega
      · intro hj
        by_cases hja : j = attempt
        · subst hja
          exact Or.inl (Or.inr (Or.inl rfl))
        · refine Or.inr ((hpre j).mpr ?_)
          omega

/-- Claim C7, amended.  Cancellation is observed only at the check performed
at the start of each attempt, before that attempt's delay: when the context
becomes cancelled during the delay preceding attempt k + 1 (uncancelled at
the checks up to clock k - 1, cancelled from clock k), and attempts
1..k + 1 fail with at least one further attempt configured, the wrapper
still sleeps that delay to completion and invokes the work function for
attempt k + 1; the cancellation error naming the task is returned at the
start of attempt k + 2, and no attempt from k + 2 onward is invoked. -/
theorem claim_C7_amended (t : RetryTask) (ctx : Nat → Bool) (k : Nat)
    (hk : 1 ≤ k)
    (hmaxA : k + 2 ≤ max (t.retries + 1) 1)
    (hfail : ∀ j, 1 ≤ j → j ≤ k + 1 → (t.work j).isSome = true)
    (hctx : ∀ c, c < k → ctx c = false)
    (hctxk : ∀ c, k ≤ c → ctx c = true) :
    (runWithRetry ctx t).1 = RetryOutcome.cancelled t.name ∧
      REvent.invoke (k + 1) ∈ (runWithRetry ctx t).2 ∧
      ∀ j, k + 2 ≤ j → REvent.invoke j ∉ (runWithRetry ctx t).2 := by
  obtain ⟨e1, he1⟩ := Option.isSome_iff_exists.mp
    (hfail 1 le_rfl (by omega))
  obtain ⟨M, hM⟩ : ∃ M, max (t.retries + 1) 1 = M + 1 :=
    ⟨max (t.retries + 1) 1 - 1, by omega⟩
  have hfirst : runWithRetry ctx t =
      consTrace [REvent.invoke 1]
        (retryGo ctx t (M + 1) M 2 0 (some e1)) := by
    unfold runWithRetry
    rw [hM]
    conv_lhs => unfold retryGo
    rw [show ctx 0 = false from hctx 0 (by omega)]
    simp only [Bool.false_eq_true, if_false]
    rw [if_neg (by omega : ¬(1 > 1)), he1]
  obtain ⟨le2, pre, hskip, hpre⟩ := retryGo_skip_failures ctx t (M + 1) k 2 0
    (some e1) M le_rfl (by omega)
    (fun i hi => hfail (2 + i) (by omega) (by omega))
    (fun i hi => by simpa using hctx i hi)
  have hcancel : retryGo ctx t (M + 1) (M - k) (2 + k) (0 + k) le2 =
      (RetryOutcome.cancelled t.name, []) := by
    obtain ⟨R, hR⟩ : ∃ R, M - k = R + 1 := ⟨M - k - 1, by omega⟩
    rw [hR]
    unfold retryGo
    rw [show ctx (0 + k) = true from hctxk (0 + k) (by omega)]
    simp
  rw [hfirst, hskip, hcancel]
  refine ⟨rfl, ?_, ?_⟩
  · show REvent.invoke (k + 1) ∈ [REvent.invoke 1] ++ (pre ++ [])
    simp only [List.append_nil, List.mem_append, List.mem_singleton]
    exact Or.inr ((hpre (k + 1)).mpr (by omega))
  · intro j hj
    show REvent.invoke j ∉ [REvent.invoke 1] ++ (pre ++ [])
    simp only [List.append_nil, List.mem_append, List.mem_singleton]
    rintro (h | h)
    · have : j = 1 := by injection h
      omega
    · have := (hpre j).mp h
      omega

def c7wTask : RetryTask :=
  { name := "t7w", retries := 3, work := fun _ => some "boom" }

theorem claim_C7_amended_witness :
    (runWithRetry c7Ctx c7wTask).1 = RetryOutcome.cancelled c7wTask.name ∧
      REvent.invoke 2 ∈ (runWithRetry c7Ctx c7wTask).2 ∧
      ∀ j, 3 ≤ j → REvent.invoke j ∉ (runWithRetry c7Ctx c7wTask).2 :=
  claim_C7_amended c7wTask c7Ctx 1 le_rfl (by decide)
    (fun j _ _ => rfl)
    (fun c hc => by
      have : c = 0 := by omega
      subst this
      rfl)
    (fun c hc => decide_eq_true hc)

/-! Claim C8: context cancelled before Run. -/

def c8Task : Task :=
  { name := "t8", fn := okFn, deps := [], done := false, running := false,
    err := none, attempts := 0 }

def c8Flow : Flow :=
  { name := "w8", tasks := [c8Task], order := ["t8"] }

/-- Claim C8 counterexample: with the context already cancelled before `Run`
is called, `Run` does return the cancellation error, but the single task of
the first wave is nevertheless executed to completion (state done, one
invocation of its work function): the context is observed only after the
wave has run.  This refutes "does not execute or complete the work function
of any task whose execution had not already started (in particular, no task
of the first wave runs)". -/
theorem claim_C8_counterexample :
    (c8Flow.Run (fun _ => true)).map
        (fun p => (p.1, p.2.tasks.map Task.done, p.2.tasks.map Task.attempts)) =
      some (RunResult.cancelled, [true], [1]) := rfl

/-- Claim C8, amended: when the context is cancelled before `Run` is called
(hence at the first observation point) and the first wave is nonempty with
every ready task's work succeeding, `Run` returns the cancellation error
only after executing that first wave to completion; tasks that were not
ready in the first wave are untouched, and no second wave runs. -/
theorem claim_C8_amended (f : Flow) (ctx : Nat → Bool)
    (hctx : ctx 0 = true)
    (hne : f.findReadyTasks ≠ [])
    (hsucc : ∀ t ∈ f.findReadyTasks, t.fn t.attempts = none) :
    f.Run ctx = some (RunResult.cancelled, runWave f) ∧
      ∀ t, isReady f.tasks t = false → waveTask f.tasks t = t := by
  have hemp : f.findReadyTasks.isEmpty = false := by
    cases h : f.findReadyTasks with
    | nil => exact absurd h hne
    | cons a l => rfl
  have hwe : waveErrors f = [] := by
    unfold waveErrors
    rw [List.filterMap_eq_nil_iff]
    intro t ht
    rw [hsucc t ht]
  have key : ∀ fuel, runLoop ctx 0 (fuel + 1) f =
      some (RunResult.cancelled, runWave f) := by
    intro fuel
    unfold runLoop
    rw [hemp]
    simp only [Bool.false_eq_true, if_false]
    rw [hwe, hctx]
    simp
  refine ⟨key f.tasks.length, fun t ht => ?_⟩
  unfold waveTask
  rw [ht]
  simp

theorem claim_C8_amended_witness :
    c8Flow.Run (fun _ => true) = some (RunResult.cancelled, runWave c8Flow) ∧
      ∀ t, isReady c8Flow.tasks t = false → waveTask c8Flow.tasks t = t :=
  claim_C8_amended c8Flow (fun _ => true) rfl
    (List.ne_nil_of_mem (show c8Task ∈ c8Flow.findReadyTasks from
      List.mem_singleton_self c8Task))
    (fun t ht => by
      have ht2 : t ∈ [c8Task] := ht
      have ht3 : t = c8Task := by simpa using ht2
      subst ht3
      rfl)

/-! Claim C9: the wave executor and the Retry Wrapper. -/

/-- Work function failing on its first invocation and succeeding on any
later one. -/
def c9Work : Nat → Option String :=
  fun n => if n = 0 then some "boom" else none

def c9Task : Task :=
  { name := "t9", fn := c9Work, deps := [], done := false, running := false,
    err := none, attempts := 0 }

def c9Flow : Flow :=
  { name := "w9", tasks := [c9Task], order := ["t9"] }

/-- Claim C9 counterexample: the wave executor does not route task work
through the bounded Retry Wrapper.  A task whose work fails on its first
invocation and would succeed on the second (well within the wrapper's
configured retries + 1 = 3 attempts) is not retried: the run fails with the
task's wrapped error and the task ends not done, with its error recorded,
after exactly one invocation. -/
theorem claim_C9_counterexample :
    (c9Flow.Run (fun _ => false)).map
        (fun p => (p.1, p.2.tasks.map Task.done, p.2.tasks.map Task.err,
          p.2.tasks.map Task.attempts)) =
        some (RunResult.taskFailed "t9: boom", [false],
          [some "t9: boom"], [1]) ∧
      c9Work 1 = none :=
  ⟨rfl, rfl⟩

theorem runTask_attempts (t : Task) :
    (runTask t).attempts = t.attempts + 1 := by
  unfold runTask; cases t.fn t.attempts <;> rfl

/-- Claim C9, amended: the wave executor invokes a ready task's work
function directly, not through the Retry Wrapper: in a wave, each ready
task's work is invoked exactly once (tasks not ready are not invoked at
all), and when the first ready task's work fails, `Run` returns that task's
wrapped error right after the wave instead of retrying it. -/
theorem claim_C9_amended (f : Flow) (ctx : Nat → Bool) (t : Task)
    (rest : List Task) (e : String)
    (hr : f.findReadyTasks = t :: rest)
    (hfail : t.fn t.attempts = some e) :
    f.Run ctx =
        some (RunResult.taskFailed (t.name ++ ": " ++ e), runWave f) ∧
      ∀ i, i < f.tasks.length →
        ((runWave f).tasks.getD i defaultTask).attempts =
          (f.tasks.getD i defaultTask).attempts +
            (if isReady f.tasks (f.tasks.getD i defaultTask) then 1
              else 0) := by
  have hemp : f.findReadyTasks.isEmpty = false := by rw [hr]; rfl
  have hwe : waveErrors f = (t.name ++ ": " ++ e) ::
      rest.filterMap (fun u => match u.fn u.attempts with
        | some e2 => some (u.name ++ ": " ++ e2)
        | none => none) := by
    unfold waveErrors
    rw [hr, List.filterMap_cons]
    simp only [hfail]
  have key : ∀ fuel, runLoop ctx 0 (fuel + 1) f =
      some (RunResult.taskFailed (t.name ++ ": " ++ e), runWave f) := by
    intro fuel
    unfold runLoop
    rw [hemp]
    simp only [Bool.false_eq_true, if_false]
    rw [hwe]
  refine ⟨key f.tasks.length, ?_⟩
  intro i hi
  have hi2 : i < (f.tasks.map (waveTask f.tasks)).length := by
    rw [List.length_map]; exact hi
  rw [runWave_tasks, List.getD_eq_getElem _ _ hi2, List.getD_eq_getElem _ _ hi,
    List.getElem_map]
  unfold waveTask
  by_cases hr2 : isReady f.tasks f.tasks[i] = true
  · rw [if_pos hr2, if_pos hr2, runTask_attempts]
  · rw [if_neg hr2, if_neg hr2]
    omega

theorem claim_C9_amended_witness :
    c9Flow.Run (fun _ => false) =
        some (RunResult.taskFailed (c9Task.name ++ ": " ++ "boom"),
          runWave c9Flow) ∧
      ∀ i, i < c9Flow.tasks.length →
        ((runWave c9Flow).tasks.getD i defaultTask).attempts =
          (c9Flow.tasks.getD i defaultTask).attempts +
            (if isReady c9Flow.tasks (c9Flow.tasks.getD i defaultTask) then 1
              else 0) :=
  claim_C9_amended c9Flow (fun _ => false) c9Task [] "boom" rfl rfl

end Pipelines
